import Mathlib

/-!
Shallow embedding of `pysteps/verification/probscores.py`.

Machine floats are modelled as exact rationals.  An input value is an
`Option ℚ`: `some q` is a finite float with value `q`, `none` is a
non-finite value (NaN or ±Inf), so the `np.isfinite` masks of the source
become `Option`-filtering here.  Integer count arrays (`dtype=int`) are
modelled as `List ℤ` (resp. `List ℕ` for the ROC counters), float arrays
as `List ℚ`.  `np.linspace`, `np.digitize(·, right=True)` and the masked
updates of the source are modelled by the list functions below.
-/

namespace ProbScores

/-- A floating-point input value: `some q` models a finite float of exact
value `q`, `none` models a non-finite value (NaN or infinity). -/
abbrev FVal := Option ℚ

/-- The pairwise finiteness filter applied by `reldiag_accum` and
`ROC_curve_accum`: keep the (probability, observation) pairs in which both
values are finite (`mask = logical_and(isfinite(P_f), isfinite(X_o))`). -/
def finitePairs (P_f X_o : List FVal) : List (ℚ × ℚ) :=
  (P_f.zip X_o).filterMap fun p =>
    match p with
    | (some a, some b) => some (a, b)
    | _ => none

/-- `np.linspace a b n`: `n` evenly spaced values from `a` to `b`,
both endpoints included (for `n = 1`, numpy returns `[a]`; division by the
rational zero `(1:ℚ) - 1` yields `0` here, matching that). -/
def linspace (a b : ℚ) (n : ℕ) : List ℚ :=
  (List.range n).map fun i : ℕ => a + (b - a) * (i : ℚ) / ((n : ℚ) - 1)

/-! ### CRPS -/

/-- Interior `alpha[i]` (`1 ≤ i ≤ m-1`) of the Hersbach decomposition as
the source computes it for a case with sorted members, from the three
sequentially applied masks `X_o > X_f[:, i]`,
`X_f[:, i] > X_o > X_f[:, i-1]` and `X_o < X_f[:, i-1]`
(`alpha` is initialised to `0`, so no matching mask leaves `0`). -/
def alphaInterior (xim1 xi o : ℚ) : ℚ :=
  if xi < o then xi - xim1
  else if xim1 < o ∧ o < xi then o - xim1
  else 0

/-- Interior `beta[i]` (`1 ≤ i ≤ m-1`), from the same three masks. -/
def betaInterior (xim1 xi o : ℚ) : ℚ :=
  if xi < o then 0
  else if xim1 < o ∧ o < xi then xi - o
  else if o < xim1 then xi - xim1
  else 0

/-- `alpha[i]` for `0 ≤ i ≤ m` of one retained case with sorted member
list `x` (`m = x.length`): `alpha[0]` is never assigned a nonzero value,
interior entries follow the three masks, and `alpha[m]` (`alpha[-1]` in
the source) is `X_o - X_f[:, -1]` on the mask `X_f[:, -1] < X_o`. -/
def alphaAt (x : List ℚ) (o : ℚ) (i : ℕ) : ℚ :=
  if i = 0 then 0
  else if i < x.length then alphaInterior (x.getD (i - 1) 0) (x.getD i 0) o
  else if x.getD (x.length - 1) 0 < o then o - x.getD (x.length - 1) 0
  else 0

/-- `beta[i]` for `0 ≤ i ≤ m` of one retained case with sorted member
list `x`: `beta[0]` is `X_f[:, 0] - X_o` on the mask `X_o < X_f[:, 0]`,
interior entries follow the three masks, and `beta[m]` is never assigned
a nonzero value. -/
def betaAt (x : List ℚ) (o : ℚ) (i : ℕ) : ℚ :=
  if i = 0 then (if o < x.getD 0 0 then x.getD 0 0 - o else 0)
  else if i < x.length then betaInterior (x.getD (i - 1) 0) (x.getD i 0) o
  else 0

/-- Per-case CRPS: `sum(alpha * p^2 + beta * (1-p)^2)` with
`p i = i / m`, for one retained case whose sorted members are `x`. -/
def caseCRPS (x : List ℚ) (o : ℚ) : ℚ :=
  ∑ i in Finset.range (x.length + 1),
    (alphaAt x o i * ((i : ℚ) / (x.length : ℚ)) ^ 2
      + betaAt x o i * (1 - (i : ℚ) / (x.length : ℚ)) ^ 2)

/-- Ascending sort of one case's ensemble members (`X_f.sort(axis=1)`). -/
def sortAsc (x : List ℚ) : List ℚ := List.insertionSort (· ≤ ·) x

/-- Row-wise finiteness filter of `CRPS`: a case is retained iff all of
its members and its observation are finite
(`mask = logical_and(all(isfinite(X_f), axis=1), isfinite(X_o))`). -/
def finCase (r : List FVal) (o : FVal) : Option (List ℚ × ℚ) :=
  match o with
  | none => none
  | some ov => if r.all Option.isSome then some (r.reduceOption, ov) else none

/-- The retained cases of a CRPS input batch, in order. -/
def retainedCases (X_f : List (List FVal)) (X_o : List FVal) :
    List (List ℚ × ℚ) :=
  (X_f.zip X_o).filterMap fun p => finCase p.1 p.2

/-- `CRPS(X_f, X_o)`: mean of the per-case scores over the retained
cases, each case's members sorted ascending first.  (The empty mean is
NaN in the source; here the rational division by `0` yields `0`.) -/
def CRPS (X_f : List (List FVal)) (X_o : List FVal) : ℚ :=
  let cs := retainedCases X_f X_o
  (cs.map fun c => caseCRPS (sortAsc c.1) c.2).sum / (cs.length : ℚ)

/-! ### Reliability diagram -/

/-- The reliability diagram accumulator created by `reldiag_init`
(a Python dict with these exact keys). -/
structure RelDiag where
  X_min : ℚ
  bin_edges : List ℚ
  n_bins : ℕ
  X_sum : List ℚ
  Y_sum : List ℤ
  num_idx : List ℤ
  sample_size : List ℤ
  min_count : ℕ
deriving DecidableEq

/-- `reldiag_init(X_min, n_bins, min_count)`: bin edges
`linspace(-1e-6, 1+1e-6, n_bins+1)` and four zeroed arrays of length
`n_bins`. -/
def reldiag_init (X_min : ℚ) (n_bins : ℕ) (min_count : ℕ) : RelDiag :=
  { X_min := X_min
    bin_edges := linspace (-(1 / 1000000)) (1 + 1 / 1000000) (n_bins + 1)
    n_bins := n_bins
    X_sum := List.replicate n_bins 0
    Y_sum := List.replicate n_bins 0
    num_idx := List.replicate n_bins 0
    sample_size := List.replicate n_bins 0
    min_count := min_count }

/-- `np.digitize(x, edges, right=True)` for an ascending edge list:
the number of edges strictly below `x`, i.e. the index `i` with
`edges[i-1] < x ≤ edges[i]` (`0` below all edges, `edges.length` above
all edges). -/
def digitizeRight (edges : List ℚ) (x : ℚ) : ℕ :=
  edges.countP fun e => decide (e < x)

/-- The contribution of bin `k` (`1 ≤ k ≤ n_bins`) for one `accum` call
on the finite pairs `pairs`: `(x, y, num_idx, ss)` appended by the loop
body — the bin's probability sum, outcome count, qualifying count and raw
count if the bin holds at least `min_count` pairs in this call, and
`(0, 0, 0, 0)` otherwise. -/
def binContrib (rd : RelDiag) (pairs : List (ℚ × ℚ)) (k : ℕ) :
    ℚ × ℤ × ℤ × ℤ :=
  let I_k := pairs.filter fun q => decide (digitizeRight rd.bin_edges q.1 = k)
  if rd.min_count ≤ I_k.length then
    ((I_k.map Prod.fst).sum,
      (I_k.countP fun q => decide (rd.X_min ≤ q.2) : ℤ),
      (I_k.length : ℤ),
      (I_k.length : ℤ))
  else (0, 0, 0, 0)

/-- The bin indices iterated over by `reldiag_accum`:
`range(1, len(bin_edges))`. -/
def binIndices (rd : RelDiag) : List ℕ :=
  (List.range (rd.bin_edges.length - 1)).map (· + 1)

/-- `reldiag_accum(reldiag, P_f, X_o)`: filter non-finite pairs, digitize
the probabilities against the bin edges (right-inclusive), and add each
bin's per-call contribution to the four running arrays. -/
def reldiag_accum (rd : RelDiag) (P_f X_o : List FVal) : RelDiag :=
  { rd with
    X_sum := List.zipWith (· + ·) rd.X_sum
      ((binIndices rd).map fun k => (binContrib rd (finitePairs P_f X_o) k).1)
    Y_sum := List.zipWith (· + ·) rd.Y_sum
      ((binIndices rd).map fun k => (binContrib rd (finitePairs P_f X_o) k).2.1)
    num_idx := List.zipWith (· + ·) rd.num_idx
      ((binIndices rd).map fun k => (binContrib rd (finitePairs P_f X_o) k).2.2.1)
    sample_size := List.zipWith (· + ·) rd.sample_size
      ((binIndices rd).map fun k => (binContrib rd (finitePairs P_f X_o) k).2.2.2) }

/-- `reldiag_compute(reldiag)`: the pair `(r, f)` with
`r = X_sum / num_idx` and `f = Y_sum / num_idx` elementwise. -/
def reldiag_compute (rd : RelDiag) : List ℚ × List ℚ :=
  (List.zipWith (fun a b => a / (b : ℚ)) rd.X_sum rd.num_idx,
    List.zipWith (fun a b => (a : ℚ) / (b : ℚ)) rd.Y_sum rd.num_idx)

/-- A sequence of `reldiag_accum` calls on an accumulator. -/
def reldiag_run (rd : RelDiag) (batches : List (List FVal × List FVal)) :
    RelDiag :=
  batches.foldl (fun s b => reldiag_accum s b.1 b.2) rd

/-! ### ROC curve -/

/-- The ROC curve accumulator created by `ROC_curve_init`. -/
structure ROCState where
  X_min : ℚ
  hits : List ℕ
  misses : List ℕ
  false_alarms : List ℕ
  corr_neg : List ℕ
  prob_thrs : List ℚ
deriving DecidableEq

/-- `ROC_curve_init(X_min, n_prob_thrs)`: four zeroed count arrays and
`prob_thrs = linspace(0, 1, n_prob_thrs)`. -/
def ROC_curve_init (X_min : ℚ) (n_prob_thrs : ℕ) : ROCState :=
  { X_min := X_min
    hits := List.replicate n_prob_thrs 0
    misses := List.replicate n_prob_thrs 0
    false_alarms := List.replicate n_prob_thrs 0
    corr_neg := List.replicate n_prob_thrs 0
    prob_thrs := linspace 0 1 n_prob_thrs }

/-- `ROC_curve_accum(ROC, P_f, X_o)`: filter non-finite pairs and, for
each probability threshold `p` at index `i`, add to the four counters the
number of pairs with `P_f >= p` / `P_f < p` crossed with
`X_o >= X_min` / `X_o < X_min`. -/
def ROC_curve_accum (R : ROCState) (P_f X_o : List FVal) : ROCState :=
  { R with
    hits := List.zipWith
      (fun h p => h + (finitePairs P_f X_o).countP fun q => decide (p ≤ q.1 ∧ R.X_min ≤ q.2))
      R.hits R.prob_thrs
    misses := List.zipWith
      (fun h p => h + (finitePairs P_f X_o).countP fun q => decide (q.1 < p ∧ R.X_min ≤ q.2))
      R.misses R.prob_thrs
    false_alarms := List.zipWith
      (fun h p => h + (finitePairs P_f X_o).countP fun q => decide (p ≤ q.1 ∧ q.2 < R.X_min))
      R.false_alarms R.prob_thrs
    corr_neg := List.zipWith
      (fun h p => h + (finitePairs P_f X_o).countP fun q => decide (q.1 < p ∧ q.2 < R.X_min))
      R.corr_neg R.prob_thrs }

/-- A sequence of `ROC_curve_accum` calls on an accumulator. -/
def ROC_run (R : ROCState) (batches : List (List FVal × List FVal)) :
    ROCState :=
  batches.foldl (fun s b => ROC_curve_accum s b.1 b.2) R

/-- `POD_vals` of `ROC_curve_compute`:
`hits[i] / (hits[i] + misses[i])` for each threshold index. -/
def POD_vals (R : ROCState) : List ℚ :=
  (List.range R.prob_thrs.length).map fun i =>
    (R.hits.getD i 0 : ℚ) / ((R.hits.getD i 0 : ℚ) + (R.misses.getD i 0 : ℚ))

/-- `POFD_vals` of `ROC_curve_compute`:
`false_alarms[i] / (corr_neg[i] + false_alarms[i])`. -/
def POFD_vals (R : ROCState) : List ℚ :=
  (List.range R.prob_thrs.length).map fun i =>
    (R.false_alarms.getD i 0 : ℚ)
      / ((R.corr_neg.getD i 0 : ℚ) + (R.false_alarms.getD i 0 : ℚ))

/-- The area accumulation loop of `ROC_curve_compute`: start from
`(1 - POFD[0]) * (1 + POD[0]) / 2`, add the trapezoid terms for
`i = 0 .. n-2`, then add `POFD[-1] * POD[-1] / 2`. -/
def ROC_area (POFD POD : List ℚ) (n : ℕ) : ℚ :=
  ((List.range (n - 1)).foldl
      (fun a i =>
        a + (POFD.getD i 0 - POFD.getD (i + 1) 0)
          * (POD.getD (i + 1) 0 + POD.getD i 0) / 2)
      ((1 - POFD.getD 0 0) * (1 + POD.getD 0 0) / 2))
    + POFD.getD (n - 1) 0 * POD.getD (n - 1) 0 / 2

/-- `ROC_curve_compute(ROC, compute_area)`: the pair
`(POFD_vals, POD_vals)`, with the area as third component when
`compute_area` is true (`none` models the absent third tuple slot). -/
def ROC_curve_compute (R : ROCState) (compute_area : Bool) :
    List ℚ × List ℚ × Option ℚ :=
  if compute_area then
    (POFD_vals R, POD_vals R,
      some (ROC_area (POFD_vals R) (POD_vals R) R.prob_thrs.length))
  else (POFD_vals R, POD_vals R, none)

/-! ### Helper lemmas -/

theorem sorted_getD_adj (x : List ℚ) (hx : x.Sorted (· ≤ ·)) (i : ℕ)
    (h1 : 1 ≤ i) (h2 : i < x.length) : x.getD (i - 1) 0 ≤ x.getD i 0 := by
  rw [List.getD_eq_getElem x 0 (by omega), List.getD_eq_getElem x 0 h2]
  exact List.pairwise_iff_getElem.mp hx (i - 1) i (by omega) h2 (by omega)

theorem all_isSome_eq_of_perm {r r' : List FVal} (hp : r.Perm r') :
    r.all Option.isSome = r'.all Option.isSome := by
  rw [Bool.eq_iff_iff, List.all_eq_true, List.all_eq_true]
  exact ⟨fun h x hx => h x (hp.mem_iff.mpr hx), fun h x hx => h x (hp.mem_iff.mp hx)⟩

theorem sortAsc_eq_of_perm {a b : List ℚ} (h : a.Perm b) : sortAsc a = sortAsc b :=
  List.eq_of_perm_of_sorted
    (((List.perm_insertionSort _ a).trans h).trans (List.perm_insertionSort _ b).symm)
    (List.sorted_insertionSort _ a) (List.sorted_insertionSort _ b)

theorem finCase_map_perm {r r' : List FVal} (hp : r.Perm r') (o : FVal) :
    (finCase r o).map (fun c => caseCRPS (sortAsc c.1) c.2)
      = (finCase r' o).map (fun c => caseCRPS (sortAsc c.1) c.2) := by
  cases o with
  | none => rfl
  | some ov =>
    simp only [finCase]
    rw [all_isSome_eq_of_perm hp]
    by_cases h : r'.all Option.isSome = true
    · rw [if_pos h, if_pos h, Option.map_some', Option.map_some']
      have hred : (r.reduceOption).Perm r'.reduceOption := hp.filterMap id
      rw [sortAsc_eq_of_perm hred]
    · rw [if_neg h, if_neg h]

theorem retainedCases_map_perm {X_f X_f' : List (List FVal)}
    (hf : List.Forall₂ List.Perm X_f X_f') :
    ∀ X_o, (retainedCases X_f X_o).map (fun c => caseCRPS (sortAsc c.1) c.2)
      = (retainedCases X_f' X_o).map (fun c => caseCRPS (sortAsc c.1) c.2) := by
  induction hf with
  | nil => intro X_o; rfl
  | @cons a b l₁ l₂ hp htl ih =>
    intro X_o
    cases X_o with
    | nil => rfl
    | cons o os =>
      have hfc := finCase_map_perm hp o
      simp only [retainedCases, List.zip_cons_cons, List.filterMap_cons]
      cases h1 : finCase a o with
      | none =>
        cases h2 : finCase b o with
        | none => exact ih os
        | some c => rw [h1, h2] at hfc; simp at hfc
      | some c =>
        cases h2 : finCase b o with
        | none => rw [h1, h2] at hfc; simp at hfc
        | some c' =>
          rw [h1, h2] at hfc
          simp only [Option.map_some', Option.some.injEq] at hfc
          simpa [hfc] using ih os

/-! ### Claims about CRPS -/

/-- C1 (counterexample): for the retained case with sorted members
`x = [0, 1]` and observation `1`, the interior index `i = 1` satisfies
`x_0 < observation ≤ x_1`, so the claim's non-strict middle branch demands
`alpha_1 = observation - x_0 = 1`; the code's strict masks all fail and
leave `alpha_1 = 0`. -/
theorem crps_interior_nonstrict_cex :
    ([0, 1] : List ℚ).getD 0 0 < 1 ∧ (1 : ℚ) ≤ ([0, 1] : List ℚ).getD 1 0 ∧
      alphaAt [0, 1] 1 1 = 0 ∧ ¬ alphaAt [0, 1] 1 1 = 1 - ([0, 1] : List ℚ).getD 0 0 := by
  refine ⟨by norm_num, by norm_num, ?_, ?_⟩ <;>
    norm_num [alphaAt, alphaInterior, List.getD]

/-- C1 (amended): for every sorted case and interior index `1 ≤ i ≤ m-1`,
the code assigns `alpha_i, beta_i` by strict comparisons: observation
above `x_i` gives `(x_i - x_{i-1}, 0)`; observation strictly between
`x_{i-1}` and `x_i` gives `(obs - x_{i-1}, x_i - obs)`; observation
strictly below `x_{i-1}` gives `(0, x_i - x_{i-1})`; and an observation
exactly equal to `x_{i-1}` or `x_i` matches none of the masks and gets
`alpha_i = beta_i = 0`. -/
theorem crps_interior_branches (x : List ℚ) (o : ℚ) (i : ℕ)
    (hx : x.Sorted (· ≤ ·)) (h1 : 1 ≤ i) (h2 : i < x.length) :
    (x.getD i 0 < o →
        alphaAt x o i = x.getD i 0 - x.getD (i - 1) 0 ∧ betaAt x o i = 0) ∧
    (x.getD (i - 1) 0 < o ∧ o < x.getD i 0 →
        alphaAt x o i = o - x.getD (i - 1) 0 ∧ betaAt x o i = x.getD i 0 - o) ∧
    (o < x.getD (i - 1) 0 →
        alphaAt x o i = 0 ∧ betaAt x o i = x.getD i 0 - x.getD (i - 1) 0) ∧
    ((o = x.getD (i - 1) 0 ∨ o = x.getD i 0) →
        alphaAt x o i = 0 ∧ betaAt x o i = 0) := by
  have hle := sorted_getD_adj x hx i h1 h2
  have hne : ¬ i = 0 := by omega
  simp only [alphaAt, betaAt, if_neg hne, if_pos h2, alphaInterior, betaInterior]
  refine ⟨fun h => ?_, fun h => ?_, fun h => ?_, fun h => ?_⟩
  · rw [if_pos h, if_pos h]; exact ⟨rfl, rfl⟩
  · have hno : ¬ x.getD i 0 < o := by linarith [h.2]
    rw [if_neg hno, if_neg hno, if_pos h, if_pos h]
    exact ⟨rfl, rfl⟩
  · have hno1 : ¬ x.getD i 0 < o := by linarith
    have hno2 : ¬ (x.getD (i - 1) 0 < o ∧ o < x.getD i 0) := by
      rintro ⟨h', -⟩; linarith
    rw [if_neg hno1, if_neg hno1, if_neg hno2, if_neg hno2, if_pos h]
    exact ⟨rfl, rfl⟩
  · rcases h with h | h
    · have hno1 : ¬ x.getD i 0 < o := by rw [h]; exact not_lt.mpr hle
      have hno2 : ¬ (x.getD (i - 1) 0 < o ∧ o < x.getD i 0) := by
        rintro ⟨h', -⟩; rw [h] at h'; exact lt_irrefl _ h'
      have hno3 : ¬ o < x.getD (i - 1) 0 := by rw [h]; exact lt_irrefl _
      rw [if_neg hno1, if_neg hno1, if_neg hno2, if_neg hno2, if_neg hno3]
      exact ⟨rfl, rfl⟩
    · have hno1 : ¬ x.getD i 0 < o := by rw [h]; exact lt_irrefl _
      have hno2 : ¬ (x.getD (i - 1) 0 < o ∧ o < x.getD i 0) := by
        rintro ⟨-, h'⟩; rw [h] at h'; exact lt_irrefl _ h'
      have hno3 : ¬ o < x.getD (i - 1) 0 := by rw [h]; exact not_lt.mpr hle
      rw [if_neg hno1, if_neg hno1, if_neg hno2, if_neg hno2, if_neg hno3]
      exact ⟨rfl, rfl⟩

/-- Witness for C1 (amended) at `x = [0, 2]`, `o = 3`, `i = 1`: the
observation is above `x_1 = 2`, so `alpha_1 = 2 - 0` and `beta_1 = 0`. -/
theorem crps_interior_branches_witness :
    alphaAt [0, 2] 3 1 = ([0, 2] : List ℚ).getD 1 0 - ([0, 2] : List ℚ).getD 0 0 ∧
      betaAt [0, 2] 3 1 = 0 :=
  (crps_interior_branches [0, 2] 3 1 (by decide) (by decide) (by decide)).1
    (by norm_num [List.getD])

/-- C7: `CRPS([[1,2,3],[4,5,6]], [2,5]) = 0` — in both cases the
observation equals the median member exactly, every strict mask fails,
and all alpha/beta entries are zero. -/
theorem crps_example :
    CRPS [[some 1, some 2, some 3], [some 4, some 5, some 6]] [some 2, some 5] = 0 := by
  have h1 : retainedCases [[some 1, some 2, some 3], [some 4, some 5, some 6]]
      [some 2, some 5] = [([1, 2, 3], 2), ([4, 5, 6], 5)] := by decide
  have hs1 : sortAsc [1, 2, 3] = [1, 2, 3] := by decide
  have hs2 : sortAsc [4, 5, 6] = [4, 5, 6] := by decide
  have hc1 : caseCRPS [1, 2, 3] 2 = 0 := by
    norm_num [caseCRPS, alphaAt, betaAt, alphaInterior, betaInterior,
      Finset.sum_range_succ, List.getD]
  have hc2 : caseCRPS [4, 5, 6] 5 = 0 := by
    norm_num [caseCRPS, alphaAt, betaAt, alphaInterior, betaInterior,
      Finset.sum_range_succ, List.getD]
  simp [CRPS, h1, hs1, hs2, hc1, hc2]

/-- C9: CRPS is invariant under independently permuting the ensemble
members within each forecast case. -/
theorem crps_perm_invariant (X_f X_f' : List (List FVal)) (X_o : List FVal)
    (hf : List.Forall₂ List.Perm X_f X_f') : CRPS X_f X_o = CRPS X_f' X_o := by
  have hm := retainedCases_map_perm hf X_o
  have hlen : (retainedCases X_f X_o).length = (retainedCases X_f' X_o).length := by
    have h := congrArg List.length hm
    rwa [List.length_map, List.length_map] at h
  simp only [CRPS, hm, hlen]

/-- Witness for C9: swapping the two members of the single case leaves
the CRPS value unchanged. -/
theorem crps_perm_invariant_witness :
    CRPS [[some 2, some 1]] [some 3] = CRPS [[some 1, some 2]] [some 3] :=
  crps_perm_invariant [[some 2, some 1]] [[some 1, some 2]] [some 3]
    (List.Forall₂.cons (List.Perm.swap (some 1) (some 2) []) List.Forall₂.nil)

/-! ### Helper lemmas for the ROC claims -/

theorem getD_map_range (f : ℕ → ℚ) (n i : ℕ) (hi : i < n) :
    ((List.range n).map f).getD i 0 = f i := by
  rw [List.getD_eq_getElem _ 0 (by simpa using hi), List.getElem_map, List.getElem_range]

theorem linspace_getD (a b : ℚ) (n i : ℕ) (hi : i < n) :
    (linspace a b n).getD i 0 = a + (b - a) * i / ((n : ℚ) - 1) := by
  rw [linspace]; exact getD_map_range _ n i hi

theorem linspace_length (a b : ℚ) (n : ℕ) : (linspace a b n).length = n := by
  rw [linspace, List.length_map, List.length_range]

theorem getD_replicate_self {α : Type} (x : α) (n i : ℕ) :
    (List.replicate n x).getD i x = x := by
  induction n generalizing i with
  | zero => simp [List.getD]
  | succ n ih => cases i with
    | zero => rfl
    | succ i => exact ih i

theorem getD_zipWith_nat (g : ℕ → ℚ → ℕ) (as : List ℕ) (ps : List ℚ) (i : ℕ)
    (ha : as.length = ps.length) (hi : i < ps.length) :
    (List.zipWith g as ps).getD i 0 = g (as.getD i 0) (ps.getD i 0) := by
  rw [List.getD_eq_getElem _ 0 (by rw [List.length_zipWith]; omega),
    List.getElem_zipWith, List.getD_eq_getElem as 0 (by omega),
    List.getD_eq_getElem ps 0 hi]

theorem countP_roc_partition (pairs : List (ℚ × ℚ)) (p xm : ℚ) :
    pairs.countP (fun q => decide (p ≤ q.1 ∧ xm ≤ q.2))
      + pairs.countP (fun q => decide (q.1 < p ∧ xm ≤ q.2))
      + pairs.countP (fun q => decide (p ≤ q.1 ∧ q.2 < xm))
      + pairs.countP (fun q => decide (q.1 < p ∧ q.2 < xm)) = pairs.length := by
  induction pairs with
  | nil => rfl
  | cons q t ih =>
    simp only [List.countP_cons, List.length_cons, decide_eq_true_eq]
    rcases le_or_lt p q.1 with h1 | h1 <;> rcases le_or_lt xm q.2 with h2 | h2
    · have n2 : ¬ (q.1 < p ∧ xm ≤ q.2) := fun hc => absurd h1 (not_le.mpr hc.1)
      have n3 : ¬ (p ≤ q.1 ∧ q.2 < xm) := fun hc => absurd h2 (not_le.mpr hc.2)
      have n4 : ¬ (q.1 < p ∧ q.2 < xm) := fun hc => absurd h1 (not_le.mpr hc.1)
      rw [if_pos ⟨h1, h2⟩, if_neg n2, if_neg n3, if_neg n4]
      omega
    · have n1 : ¬ (p ≤ q.1 ∧ xm ≤ q.2) := fun hc => absurd h2 (not_lt.mpr hc.2)
      have n2 : ¬ (q.1 < p ∧ xm ≤ q.2) := fun hc => absurd h2 (not_lt.mpr hc.2)
      have n4 : ¬ (q.1 < p ∧ q.2 < xm) := fun hc => absurd hc.1 (not_lt.mpr h1)
      rw [if_neg n1, if_neg n2, if_pos ⟨h1, h2⟩, if_neg n4]
      omega
    · have n1 : ¬ (p ≤ q.1 ∧ xm ≤ q.2) := fun hc => absurd h1 (not_lt.mpr hc.1)
      have n3 : ¬ (p ≤ q.1 ∧ q.2 < xm) := fun hc => absurd h1 (not_lt.mpr hc.1)
      have n4 : ¬ (q.1 < p ∧ q.2 < xm) := fun hc => absurd h2 (not_le.mpr hc.2)
      rw [if_neg n1, if_pos ⟨h1, h2⟩, if_neg n3, if_neg n4]
      omega
    · have n1 : ¬ (p ≤ q.1 ∧ xm ≤ q.2) := fun hc => absurd h1 (not_lt.mpr hc.1)
      have n2 : ¬ (q.1 < p ∧ xm ≤ q.2) := fun hc => absurd h2 (not_lt.mpr hc.2)
      have n3 : ¬ (p ≤ q.1 ∧ q.2 < xm) := fun hc => absurd h1 (not_lt.mpr hc.1)
      rw [if_neg n1, if_neg n2, if_neg n3, if_pos ⟨h1, h2⟩]
      omega

/-- Well-formedness of a ROC accumulator: the four count arrays have the
same length as the threshold array (true from `ROC_curve_init` on). -/
def ROCWF (R : ROCState) : Prop :=
  R.hits.length = R.prob_thrs.length ∧ R.misses.length = R.prob_thrs.length ∧
    R.false_alarms.length = R.prob_thrs.length ∧ R.corr_neg.length = R.prob_thrs.length

theorem ROCWF_init (X_min : ℚ) (n : ℕ) : ROCWF (ROC_curve_init X_min n) := by
  simp [ROCWF, ROC_curve_init, linspace]

theorem ROCWF_accum {R : ROCState} (h : ROCWF R) (P_f X_o : List FVal) :
    ROCWF (ROC_curve_accum R P_f X_o) := by
  obtain ⟨h1, h2, h3, h4⟩ := h
  simp [ROCWF, ROC_curve_accum, List.length_zipWith, h1, h2, h3, h4]

theorem ROC_accum_sum (R : ROCState) (P_f X_o : List FVal) (i : ℕ)
    (hwf : ROCWF R) (hi : i < R.prob_thrs.length) :
    (ROC_curve_accum R P_f X_o).hits.getD i 0
      + (ROC_curve_accum R P_f X_o).misses.getD i 0
      + (ROC_curve_accum R P_f X_o).false_alarms.getD i 0
      + (ROC_curve_accum R P_f X_o).corr_neg.getD i 0
      = R.hits.getD i 0 + R.misses.getD i 0 + R.false_alarms.getD i 0
        + R.corr_neg.getD i 0 + (finitePairs P_f X_o).length := by
  obtain ⟨h1, h2, h3, h4⟩ := hwf
  have e1 := getD_zipWith_nat
    (fun h p => h + (finitePairs P_f X_o).countP fun q => decide (p ≤ q.1 ∧ R.X_min ≤ q.2))
    R.hits R.prob_thrs i h1 hi
  have e2 := getD_zipWith_nat
    (fun h p => h + (finitePairs P_f X_o).countP fun q => decide (q.1 < p ∧ R.X_min ≤ q.2))
    R.misses R.prob_thrs i h2 hi
  have e3 := getD_zipWith_nat
    (fun h p => h + (finitePairs P_f X_o).countP fun q => decide (p ≤ q.1 ∧ q.2 < R.X_min))
    R.false_alarms R.prob_thrs i h3 hi
  have e4 := getD_zipWith_nat
    (fun h p => h + (finitePairs P_f X_o).countP fun q => decide (q.1 < p ∧ q.2 < R.X_min))
    R.corr_neg R.prob_thrs i h4 hi
  simp only [] at e1 e2 e3 e4
  have hpart := countP_roc_partition (finitePairs P_f X_o) (R.prob_thrs.getD i 0) R.X_min
  show (List.zipWith
      (fun h p => h + (finitePairs P_f X_o).countP fun q => decide (p ≤ q.1 ∧ R.X_min ≤ q.2))
      R.hits R.prob_thrs).getD i 0
    + (List.zipWith
      (fun h p => h + (finitePairs P_f X_o).countP fun q => decide (q.1 < p ∧ R.X_min ≤ q.2))
      R.misses R.prob_thrs).getD i 0
    + (List.zipWith
      (fun h p => h + (finitePairs P_f X_o).countP fun q => decide (p ≤ q.1 ∧ q.2 < R.X_min))
      R.false_alarms R.prob_thrs).getD i 0
    + (List.zipWith
      (fun h p => h + (finitePairs P_f X_o).countP fun q => decide (q.1 < p ∧ q.2 < R.X_min))
      R.corr_neg R.prob_thrs).getD i 0
    = R.hits.getD i 0 + R.misses.getD i 0 + R.false_alarms.getD i 0
      + R.corr_neg.getD i 0 + (finitePairs P_f X_o).length
  rw [e1, e2, e3, e4]
  omega

theorem ROC_run_sum (batches : List (List FVal × List FVal)) :
    ∀ R : ROCState, ROCWF R → ∀ i, i < R.prob_thrs.length →
      (ROC_run R batches).hits.getD i 0 + (ROC_run R batches).misses.getD i 0
        + (ROC_run R batches).false_alarms.getD i 0
        + (ROC_run R batches).corr_neg.getD i 0
      = R.hits.getD i 0 + R.misses.getD i 0 + R.false_alarms.getD i 0
        + R.corr_neg.getD i 0
        + (batches.map fun b => (finitePairs b.1 b.2).length).sum := by
  induction batches with
  | nil => intro R _ i _; simp [ROC_run]
  | cons b bs ih =>
    intro R hwf i hi
    have hrw : ROC_run R (b :: bs) = ROC_run (ROC_curve_accum R b.1 b.2) bs := rfl
    have hpt : (ROC_curve_accum R b.1 b.2).prob_thrs = R.prob_thrs := rfl
    have hstep := ROC_accum_sum R b.1 b.2 i hwf hi
    have hrest := ih (ROC_curve_accum R b.1 b.2) (ROCWF_accum hwf b.1 b.2) i
      (by rw [hpt]; exact hi)
    rw [hrw, hrest, hstep]
    simp only [List.map_cons, List.sum_cons]
    omega

/-! ### Claims about the ROC accumulator -/

/-- C2: after any sequence of `ROC_curve_accum` calls on a fresh
`ROC_curve_init` accumulator, at every threshold index the four counters
sum to the cumulative number of finite (probability, observation) pairs
ever accumulated. -/
theorem roc_partition_invariant (X_min : ℚ) (n : ℕ)
    (batches : List (List FVal × List FVal)) (i : ℕ) (hi : i < n) :
    (ROC_run (ROC_curve_init X_min n) batches).hits.getD i 0
      + (ROC_run (ROC_curve_init X_min n) batches).misses.getD i 0
      + (ROC_run (ROC_curve_init X_min n) batches).false_alarms.getD i 0
      + (ROC_run (ROC_curve_init X_min n) batches).corr_neg.getD i 0
      = (batches.map fun b => (finitePairs b.1 b.2).length).sum := by
  have hlen : (ROC_curve_init X_min n).prob_thrs.length = n := linspace_length 0 1 n
  have h := ROC_run_sum batches (ROC_curve_init X_min n) (ROCWF_init X_min n) i
    (by rw [hlen]; exact hi)
  have hz0 : (ROC_curve_init X_min n).hits.getD i 0 = 0 := getD_replicate_self 0 n i
  have hz1 : (ROC_curve_init X_min n).misses.getD i 0 = 0 := getD_replicate_self 0 n i
  have hz2 : (ROC_curve_init X_min n).false_alarms.getD i 0 = 0 :=
    getD_replicate_self 0 n i
  have hz3 : (ROC_curve_init X_min n).corr_neg.getD i 0 = 0 := getD_replicate_self 0 n i
  rw [h, hz0, hz1, hz2, hz3]
  omega

/-- Witness for C2: one accumulated batch with two finite pairs and one
non-finite pair; at threshold index 0 the counters sum to 2. -/
theorem roc_partition_invariant_witness :
    (ROC_run (ROC_curve_init 1 2) [([some (1/2), some (3/4), none], [some 2, some 0, some 1])]).hits.getD 0 0
      + (ROC_run (ROC_curve_init 1 2) [([some (1/2), some (3/4), none], [some 2, some 0, some 1])]).misses.getD 0 0
      + (ROC_run (ROC_curve_init 1 2) [([some (1/2), some (3/4), none], [some 2, some 0, some 1])]).false_alarms.getD 0 0
      + (ROC_run (ROC_curve_init 1 2) [([some (1/2), some (3/4), none], [some 2, some 0, some 1])]).corr_neg.getD 0 0
      = ([([some (1/2), some (3/4), none], [some 2, some 0, some 1])].map
          fun b => (finitePairs b.1 b.2).length).sum :=
  roc_partition_invariant 1 2 [([some (1/2), some (3/4), none], [some 2, some 0, some 1])] 0
    (by norm_num)

theorem foldl_add_range (f : ℕ → ℚ) (c : ℚ) (k : ℕ) :
    (List.range k).foldl (fun a i => a + f i) c = c + ∑ i in Finset.range k, f i := by
  induction k with
  | zero => simp
  | succ k ih =>
    rw [List.range_succ, List.foldl_append, ih, Finset.sum_range_succ]
    simp [add_assoc]

theorem prob_thrs_getD (X_min : ℚ) (n i : ℕ) (hi : i < n) :
    (ROC_curve_init X_min n).prob_thrs.getD i 0 = (i : ℚ) / ((n : ℚ) - 1) := by
  have h : (ROC_curve_init X_min n).prob_thrs = linspace 0 1 n := rfl
  rw [h, linspace_getD 0 1 n i hi]
  ring

/-! ### Claims about ROC_curve_init and ROC_curve_compute -/

/-- C6 (counterexample): for `n_prob_thresholds = 1` the threshold array
is `[0]` (numpy's `linspace(0, 1, 1)` returns only the start point), so it
does not include the endpoint `1`. -/
theorem roc_prob_thrs_n1_cex :
    (ROC_curve_init 0 1).prob_thrs = [0] ∧
      (1 : ℚ) ∉ (ROC_curve_init 0 1).prob_thrs := by
  have h : (ROC_curve_init 0 1).prob_thrs = [0] := by
    have h1 : (ROC_curve_init 0 1).prob_thrs = linspace 0 1 1 := rfl
    rw [h1, linspace]
    norm_num [List.range_succ]
  exact ⟨h, by rw [h]; norm_num⟩

/-- C6 (amended): for every `n_prob_thresholds ≥ 2`, `prob_thrs` consists
of `n` evenly spaced values `i/(n-1)` in `[0, 1]`, strictly ascending,
containing both endpoints `0` and `1`.  (For `n = 1` the array is `[0]`
and the endpoint `1` is missing.) -/
theorem roc_prob_thrs_spec (X_min : ℚ) (n : ℕ) (hn : 2 ≤ n) :
    ((ROC_curve_init X_min n).prob_thrs).length = n ∧
    (∀ i, i < n →
      (ROC_curve_init X_min n).prob_thrs.getD i 0 = (i : ℚ) / ((n : ℚ) - 1)) ∧
    (ROC_curve_init X_min n).prob_thrs.getD 0 0 = 0 ∧
    (ROC_curve_init X_min n).prob_thrs.getD (n - 1) 0 = 1 ∧
    (0 : ℚ) ∈ (ROC_curve_init X_min n).prob_thrs ∧
    (1 : ℚ) ∈ (ROC_curve_init X_min n).prob_thrs ∧
    (∀ i, i + 1 < n →
      (ROC_curve_init X_min n).prob_thrs.getD (i + 1) 0
        - (ROC_curve_init X_min n).prob_thrs.getD i 0 = 1 / ((n : ℚ) - 1)) ∧
    (∀ i j, i < j → j < n →
      (ROC_curve_init X_min n).prob_thrs.getD i 0
        < (ROC_curve_init X_min n).prob_thrs.getD j 0) ∧
    (∀ i, i < n → 0 ≤ (ROC_curve_init X_min n).prob_thrs.getD i 0 ∧
      (ROC_curve_init X_min n).prob_thrs.getD i 0 ≤ 1) := by
  have hd : (0 : ℚ) < (n : ℚ) - 1 := by
    have : (2 : ℚ) ≤ (n : ℚ) := by exact_mod_cast hn
    linarith
  have hlen : ((ROC_curve_init X_min n).prob_thrs).length = n := linspace_length 0 1 n
  have hg : ∀ i, i < n →
      (ROC_curve_init X_min n).prob_thrs.getD i 0 = (i : ℚ) / ((n : ℚ) - 1) :=
    fun i hi => prob_thrs_getD X_min n i hi
  have h0 : (ROC_curve_init X_min n).prob_thrs.getD 0 0 = 0 := by
    rw [hg 0 (by omega)]; norm_num
  have h1 : (ROC_curve_init X_min n).prob_thrs.getD (n - 1) 0 = 1 := by
    rw [hg (n - 1) (by omega), Nat.cast_sub (by omega), Nat.cast_one]
    exact div_self (ne_of_gt hd)
  refine ⟨hlen, hg, h0, h1, ?_, ?_, ?_, ?_, ?_⟩
  · have hm := List.get_mem (ROC_curve_init X_min n).prob_thrs 0 (by omega)
    rwa [List.get_eq_getElem, ← List.getD_eq_getElem _ 0 (by omega), h0] at hm
  · have hm := List.get_mem (ROC_curve_init X_min n).prob_thrs (n - 1) (by omega)
    rwa [List.get_eq_getElem, ← List.getD_eq_getElem _ 0 (by omega), h1] at hm
  · intro i hi
    rw [hg (i + 1) hi, hg i (by omega), div_sub_div_same]
    push_cast
    ring_nf
  · intro i j hij hj
    rw [hg i (by omega), hg j hj]
    rw [div_lt_div_iff_of_pos_right hd]
    exact_mod_cast hij
  · intro i hi
    rw [hg i hi]
    constructor
    · positivity
    · rw [div_le_one hd]
      have : i ≤ n - 1 := by omega
      have hc : (i : ℚ) ≤ ((n - 1 : ℕ) : ℚ) := by exact_mod_cast this
      rwa [Nat.cast_sub (by omega), Nat.cast_one] at hc

/-- Witness for C6 (amended) at `n = 2`. -/
theorem roc_prob_thrs_spec_witness :
    ((ROC_curve_init 0 2).prob_thrs).length = 2 ∧
    (∀ i, i < 2 → (ROC_curve_init 0 2).prob_thrs.getD i 0 = (i : ℚ) / ((2 : ℚ) - 1)) ∧
    (ROC_curve_init 0 2).prob_thrs.getD 0 0 = 0 ∧
    (ROC_curve_init 0 2).prob_thrs.getD (2 - 1) 0 = 1 ∧
    (0 : ℚ) ∈ (ROC_curve_init 0 2).prob_thrs ∧
    (1 : ℚ) ∈ (ROC_curve_init 0 2).prob_thrs ∧
    (∀ i, i + 1 < 2 →
      (ROC_curve_init 0 2).prob_thrs.getD (i + 1) 0
        - (ROC_curve_init 0 2).prob_thrs.getD i 0 = 1 / ((2 : ℚ) - 1)) ∧
    (∀ i j, i < j → j < 2 →
      (ROC_curve_init 0 2).prob_thrs.getD i 0 < (ROC_curve_init 0 2).prob_thrs.getD j 0) ∧
    (∀ i, i < 2 → 0 ≤ (ROC_curve_init 0 2).prob_thrs.getD i 0 ∧
      (ROC_curve_init 0 2).prob_thrs.getD i 0 ≤ 1) := by
  have h := roc_prob_thrs_spec 0 2 (by norm_num)
  exact_mod_cast h

/-- C5: with `compute_area = True`, `ROC_curve_compute` returns the
triple `(POFD, POD, area)` with its accumulation loop summing to exactly
the claimed closed form, where `POD[i] = hits[i]/(hits[i]+misses[i])` and
`POFD[i] = false_alarms[i]/(corr_neg[i]+false_alarms[i])`. -/
theorem roc_compute_area_spec (R : ROCState) (_hn : 0 < R.prob_thrs.length) :
    ROC_curve_compute R true
      = (POFD_vals R, POD_vals R,
          some ((1 - (POFD_vals R).getD 0 0) * (1 + (POD_vals R).getD 0 0) / 2
            + ∑ i in Finset.range (R.prob_thrs.length - 1),
                ((POFD_vals R).getD i 0 - (POFD_vals R).getD (i + 1) 0)
                  * ((POD_vals R).getD (i + 1) 0 + (POD_vals R).getD i 0) / 2
            + (POFD_vals R).getD (R.prob_thrs.length - 1) 0
                * (POD_vals R).getD (R.prob_thrs.length - 1) 0 / 2))
      ∧ (∀ i, i < R.prob_thrs.length →
          (POD_vals R).getD i 0
            = (R.hits.getD i 0 : ℚ) / ((R.hits.getD i 0 : ℚ) + (R.misses.getD i 0 : ℚ))
          ∧ (POFD_vals R).getD i 0
            = (R.false_alarms.getD i 0 : ℚ)
              / ((R.corr_neg.getD i 0 : ℚ) + (R.false_alarms.getD i 0 : ℚ))) := by
  constructor
  · have harea : ROC_area (POFD_vals R) (POD_vals R) R.prob_thrs.length
        = (1 - (POFD_vals R).getD 0 0) * (1 + (POD_vals R).getD 0 0) / 2
          + ∑ i in Finset.range (R.prob_thrs.length - 1),
              ((POFD_vals R).getD i 0 - (POFD_vals R).getD (i + 1) 0)
                * ((POD_vals R).getD (i + 1) 0 + (POD_vals R).getD i 0) / 2
          + (POFD_vals R).getD (R.prob_thrs.length - 1) 0
              * (POD_vals R).getD (R.prob_thrs.length - 1) 0 / 2 := by
      rw [ROC_area, foldl_add_range]
    rw [ROC_curve_compute, if_pos rfl, harea]
  · intro i hi
    exact ⟨getD_map_range _ R.prob_thrs.length i hi, getD_map_range _ R.prob_thrs.length i hi⟩

/-- Witness for C5 at a freshly initialised two-threshold accumulator. -/
theorem roc_compute_area_spec_witness :
    ROC_curve_compute (ROC_curve_init 0 2) true
      = (POFD_vals (ROC_curve_init 0 2), POD_vals (ROC_curve_init 0 2),
          some ((1 - (POFD_vals (ROC_curve_init 0 2)).getD 0 0)
                * (1 + (POD_vals (ROC_curve_init 0 2)).getD 0 0) / 2
            + ∑ i in Finset.range ((ROC_curve_init 0 2).prob_thrs.length - 1),
                ((POFD_vals (ROC_curve_init 0 2)).getD i 0
                    - (POFD_vals (ROC_curve_init 0 2)).getD (i + 1) 0)
                  * ((POD_vals (ROC_curve_init 0 2)).getD (i + 1) 0
                    + (POD_vals (ROC_curve_init 0 2)).getD i 0) / 2
            + (POFD_vals (ROC_curve_init 0 2)).getD ((ROC_curve_init 0 2).prob_thrs.length - 1) 0
                * (POD_vals (ROC_curve_init 0 2)).getD ((ROC_curve_init 0 2).prob_thrs.length - 1) 0 / 2))
      ∧ (∀ i, i < (ROC_curve_init 0 2).prob_thrs.length →
          (POD_vals (ROC_curve_init 0 2)).getD i 0
            = ((ROC_curve_init 0 2).hits.getD i 0 : ℚ)
              / (((ROC_curve_init 0 2).hits.getD i 0 : ℚ)
                + ((ROC_curve_init 0 2).misses.getD i 0 : ℚ))
          ∧ (POFD_vals (ROC_curve_init 0 2)).getD i 0
            = ((ROC_curve_init 0 2).false_alarms.getD i 0 : ℚ)
              / (((ROC_curve_init 0 2).corr_neg.getD i 0 : ℚ)
                + ((ROC_curve_init 0 2).false_alarms.getD i 0 : ℚ))) :=
  roc_compute_area_spec (ROC_curve_init 0 2)
    (by rw [show (ROC_curve_init 0 2).prob_thrs = linspace 0 1 2 from rfl,
      linspace_length]; norm_num)

/-! ### Helper lemmas for the reliability-diagram claims -/

theorem getD_zipWith_of_lt {α β γ : Type} (g : α → β → γ) (as : List α) (bs : List β)
    (a0 : α) (b0 : β) (c0 : γ) (i : ℕ) (hi : i < as.length) (hj : i < bs.length) :
    (List.zipWith g as bs).getD i c0 = g (as.getD i a0) (bs.getD i b0) := by
  rw [List.getD_eq_getElem _ c0 (by rw [List.length_zipWith]; omega),
    List.getElem_zipWith, List.getD_eq_getElem as a0 hi, List.getD_eq_getElem bs b0 hj]

/-- Well-formedness of a reliability diagram accumulator: `n_bins + 1`
bin edges and four running arrays of length `n_bins` (true from
`reldiag_init` on). -/
def RelDiagWF (rd : RelDiag) : Prop :=
  rd.bin_edges.length = rd.n_bins + 1 ∧ rd.X_sum.length = rd.n_bins ∧
    rd.Y_sum.length = rd.n_bins ∧ rd.num_idx.length = rd.n_bins ∧
    rd.sample_size.length = rd.n_bins

theorem RelDiagWF_init (X_min : ℚ) (n_bins min_count : ℕ) :
    RelDiagWF (reldiag_init X_min n_bins min_count) := by
  refine ⟨?_, ?_, ?_, ?_, ?_⟩ <;>
    simp [reldiag_init, linspace_length]

theorem binIndices_length (rd : RelDiag) :
    (binIndices rd).length = rd.bin_edges.length - 1 := by
  rw [binIndices, List.length_map, List.length_range]

theorem getD_map_binIndices {γ : Type} (rd : RelDiag) (f : ℕ → γ) (c0 : γ) (j : ℕ)
    (hj : j < rd.bin_edges.length - 1) :
    ((binIndices rd).map f).getD j c0 = f (j + 1) := by
  rw [binIndices, List.map_map]
  have hlen : j < ((List.range (rd.bin_edges.length - 1)).map (f ∘ (· + 1))).length := by
    rw [List.length_map, List.length_range]; exact hj
  rw [List.getD_eq_getElem _ c0 hlen, List.getElem_map, List.getElem_range]
  rfl

theorem RelDiagWF_accum {rd : RelDiag} (h : RelDiagWF rd) (P_f X_o : List FVal) :
    RelDiagWF (reldiag_accum rd P_f X_o) := by
  obtain ⟨he, h1, h2, h3, h4⟩ := h
  refine ⟨he, ?_, ?_, ?_, ?_⟩ <;>
    simp [reldiag_accum, List.length_zipWith, binIndices_length, he, h1, h2, h3, h4]

theorem reldiag_accum_getD (rd : RelDiag) (P_f X_o : List FVal) (j : ℕ)
    (hwf : RelDiagWF rd) (hj : j < rd.n_bins) :
    (reldiag_accum rd P_f X_o).X_sum.getD j 0
        = rd.X_sum.getD j 0 + (binContrib rd (finitePairs P_f X_o) (j + 1)).1
      ∧ (reldiag_accum rd P_f X_o).Y_sum.getD j 0
        = rd.Y_sum.getD j 0 + (binContrib rd (finitePairs P_f X_o) (j + 1)).2.1
      ∧ (reldiag_accum rd P_f X_o).num_idx.getD j 0
        = rd.num_idx.getD j 0 + (binContrib rd (finitePairs P_f X_o) (j + 1)).2.2.1
      ∧ (reldiag_accum rd P_f X_o).sample_size.getD j 0
        = rd.sample_size.getD j 0 + (binContrib rd (finitePairs P_f X_o) (j + 1)).2.2.2 := by
  obtain ⟨he, h1, h2, h3, h4⟩ := hwf
  have hje : j < rd.bin_edges.length - 1 := by omega
  have hmap : ∀ γ : Type, ∀ f : ℕ → γ, ∀ c0 : γ,
      (((binIndices rd).map f).getD j c0) = f (j + 1) :=
    fun γ f c0 => getD_map_binIndices rd f c0 j hje
  refine ⟨?_, ?_, ?_, ?_⟩
  · rw [show (reldiag_accum rd P_f X_o).X_sum = List.zipWith (· + ·) rd.X_sum
        ((binIndices rd).map fun k => (binContrib rd (finitePairs P_f X_o) k).1) from rfl,
      getD_zipWith_of_lt _ _ _ 0 0 0 j (by omega)
        (by rw [List.length_map, binIndices_length]; omega),
      hmap]
  · rw [show (reldiag_accum rd P_f X_o).Y_sum = List.zipWith (· + ·) rd.Y_sum
        ((binIndices rd).map fun k => (binContrib rd (finitePairs P_f X_o) k).2.1) from rfl,
      getD_zipWith_of_lt _ _ _ 0 0 0 j (by omega)
        (by rw [List.length_map, binIndices_length]; omega),
      hmap]
  · rw [show (reldiag_accum rd P_f X_o).num_idx = List.zipWith (· + ·) rd.num_idx
        ((binIndices rd).map fun k => (binContrib rd (finitePairs P_f X_o) k).2.2.1) from rfl,
      getD_zipWith_of_lt _ _ _ 0 0 0 j (by omega)
        (by rw [List.length_map, binIndices_length]; omega),
      hmap]
  · rw [show (reldiag_accum rd P_f X_o).sample_size = List.zipWith (· + ·) rd.sample_size
        ((binIndices rd).map fun k => (binContrib rd (finitePairs P_f X_o) k).2.2.2) from rfl,
      getD_zipWith_of_lt _ _ _ 0 0 0 j (by omega)
        (by rw [List.length_map, binIndices_length]; omega),
      hmap]

theorem linspace_mem_bounds (a b : ℚ) (n : ℕ) (hab : a ≤ b) :
    ∀ e ∈ linspace a b n, a ≤ e ∧ e ≤ b := by
  intro e he
  rw [linspace, List.mem_map] at he
  obtain ⟨i, hi, rfl⟩ := he
  rw [List.mem_range] at hi
  rcases Nat.lt_or_ge n 2 with hn | hn
  · have hi0 : i = 0 := by omega
    subst hi0
    simp only [Nat.cast_zero, mul_zero, zero_div, add_zero]
    exact ⟨le_refl a, hab⟩
  · have hd : (0 : ℚ) < (n : ℚ) - 1 := by
      have : (2 : ℚ) ≤ (n : ℚ) := by exact_mod_cast hn
      linarith
    constructor
    · have : 0 ≤ (b - a) * (i : ℚ) / ((n : ℚ) - 1) :=
        div_nonneg (mul_nonneg (by linarith) (by positivity)) (le_of_lt hd)
      linarith
    · have hiq : (i : ℚ) ≤ (n : ℚ) - 1 := by
        have : (i : ℚ) ≤ ((n - 1 : ℕ) : ℚ) := by exact_mod_cast (by omega : i ≤ n - 1)
        rwa [Nat.cast_sub (by omega), Nat.cast_one] at this
      have hstep : (b - a) * (i : ℚ) / ((n : ℚ) - 1) ≤ b - a := by
        rw [div_le_iff₀ hd]
        exact mul_le_mul_of_nonneg_left hiq (by linarith)
      linarith

/-! ### Claims about reldiag_accum -/

/-- C3: in a single `reldiag_accum` call on any accumulator state, a bin
whose number of qualifying pairs in this call is strictly below
`min_count` leaves all four running arrays unchanged at that bin's index
(the minimum-count test sees only this call's pairs, never the cumulative
totals). -/
theorem reldiag_below_min_unchanged (rd : RelDiag) (P_f X_o : List FVal) (j : ℕ)
    (hwf : RelDiagWF rd) (hj : j < rd.n_bins)
    (hcount : ((finitePairs P_f X_o).filter
        fun q => decide (digitizeRight rd.bin_edges q.1 = j + 1)).length < rd.min_count) :
    (reldiag_accum rd P_f X_o).X_sum.getD j 0 = rd.X_sum.getD j 0 ∧
    (reldiag_accum rd P_f X_o).Y_sum.getD j 0 = rd.Y_sum.getD j 0 ∧
    (reldiag_accum rd P_f X_o).num_idx.getD j 0 = rd.num_idx.getD j 0 ∧
    (reldiag_accum rd P_f X_o).sample_size.getD j 0 = rd.sample_size.getD j 0 := by
  have hz : binContrib rd (finitePairs P_f X_o) (j + 1) = (0, 0, 0, 0) := by
    simp only [binContrib]
    rw [if_neg (not_le.mpr hcount)]
  obtain ⟨e1, e2, e3, e4⟩ := reldiag_accum_getD rd P_f X_o j hwf hj
  rw [e1, e2, e3, e4, hz]
  norm_num

/-- Witness for C3: a two-edge accumulator with `min_count = 2` receiving
a single pair; the one bin stays at zero in all four arrays. -/
theorem reldiag_below_min_unchanged_witness :
    (reldiag_accum ⟨1, [0, 2], 1, [0], [0], [0], [0], 2⟩ [some 1] [some 0]).X_sum.getD 0 0
        = (⟨1, [0, 2], 1, [0], [0], [0], [0], 2⟩ : RelDiag).X_sum.getD 0 0 ∧
      (reldiag_accum ⟨1, [0, 2], 1, [0], [0], [0], [0], 2⟩ [some 1] [some 0]).Y_sum.getD 0 0
        = (⟨1, [0, 2], 1, [0], [0], [0], [0], 2⟩ : RelDiag).Y_sum.getD 0 0 ∧
      (reldiag_accum ⟨1, [0, 2], 1, [0], [0], [0], [0], 2⟩ [some 1] [some 0]).num_idx.getD 0 0
        = (⟨1, [0, 2], 1, [0], [0], [0], [0], 2⟩ : RelDiag).num_idx.getD 0 0 ∧
      (reldiag_accum ⟨1, [0, 2], 1, [0], [0], [0], [0], 2⟩ [some 1] [some 0]).sample_size.getD 0 0
        = (⟨1, [0, 2], 1, [0], [0], [0], [0], 2⟩ : RelDiag).sample_size.getD 0 0 :=
  reldiag_below_min_unchanged ⟨1, [0, 2], 1, [0], [0], [0], [0], 2⟩ [some 1] [some 0] 0
    ⟨rfl, rfl, rfl, rfl, rfl⟩ (by norm_num) (by decide)

/-- C10: a finite forecast probability outside `(-1e-6, 1+1e-6]` is
digitized to bin index `0` or `n_bins + 1`, which no iterated bin index
matches, so appending such a pair to an `accum` call leaves the resulting
accumulator exactly as if the pair had not been passed in. -/
theorem reldiag_out_of_range_dropped (rd : RelDiag) (P_f X_o : List FVal)
    (hlen : P_f.length = X_o.length) (p o : ℚ)
    (hedges : rd.bin_edges = linspace (-(1 / 1000000)) (1 + 1 / 1000000) (rd.n_bins + 1))
    (hp : p ≤ -(1 / 1000000) ∨ 1 + 1 / 1000000 < p) :
    (digitizeRight rd.bin_edges p = 0 ∨ digitizeRight rd.bin_edges p = rd.n_bins + 1) ∧
      reldiag_accum rd (P_f ++ [some p]) (X_o ++ [some o]) = reldiag_accum rd P_f X_o := by
  have hel : rd.bin_edges.length = rd.n_bins + 1 := by rw [hedges, linspace_length]
  have hbounds := linspace_mem_bounds (-(1 / 1000000)) (1 + 1 / 1000000) (rd.n_bins + 1)
    (by norm_num)
  have hdig : digitizeRight rd.bin_edges p = 0 ∨
      digitizeRight rd.bin_edges p = rd.n_bins + 1 := by
    rcases hp with hp | hp
    · left
      rw [digitizeRight]
      refine List.countP_eq_zero.mpr fun e he => ?_
      have hb := (hbounds e (by rwa [← hedges])).1
      simp only [decide_eq_true_eq]
      intro hlt
      linarith
    · right
      rw [digitizeRight]
      have hall : ∀ e ∈ rd.bin_edges, (fun e => decide (e < p)) e = true := by
        intro e he
        have hb := (hbounds e (by rwa [← hedges])).2
        simp only [decide_eq_true_eq]
        linarith
      exact (List.countP_eq_length.mpr hall).trans hel
  refine ⟨hdig, ?_⟩
  have hpairs : finitePairs (P_f ++ [some p]) (X_o ++ [some o])
      = finitePairs P_f X_o ++ [(p, o)] := by
    rw [finitePairs, List.zip_append hlen, List.filterMap_append]
    rfl
  have hbc : ∀ k ∈ binIndices rd,
      binContrib rd (finitePairs P_f X_o ++ [(p, o)]) k
        = binContrib rd (finitePairs P_f X_o) k := by
    intro k hk
    rw [binIndices, List.mem_map] at hk
    obtain ⟨j, hj, rfl⟩ := hk
    rw [List.mem_range] at hj
    have hkd : ¬ digitizeRight rd.bin_edges p = j + 1 := by
      rcases hdig with h | h <;> rw [h] <;> omega
    have hfe : List.filter
        (fun q : ℚ × ℚ => decide (digitizeRight rd.bin_edges q.1 = j + 1)) [(p, o)]
        = [] := by
      simp [List.filter_cons, hkd]
    simp only [binContrib, List.filter_append, hfe, List.append_nil]
  simp only [reldiag_accum, hpairs]
  congr 1
  · exact congrArg _ (List.map_congr_left fun k hk => by rw [hbc k hk])
  · exact congrArg _ (List.map_congr_left fun k hk => by rw [hbc k hk])
  · exact congrArg _ (List.map_congr_left fun k hk => by rw [hbc k hk])
  · exact congrArg _ (List.map_congr_left fun k hk => by rw [hbc k hk])

/-- Witness for C10: a probability of `2` appended to a one-pair call on
a fresh one-bin accumulator is digitized to `n_bins + 1 = 2` and changes
nothing. -/
theorem reldiag_out_of_range_dropped_witness :
    (digitizeRight (reldiag_init 1 1 1).bin_edges 2 = 0 ∨
        digitizeRight (reldiag_init 1 1 1).bin_edges 2 = (reldiag_init 1 1 1).n_bins + 1) ∧
      reldiag_accum (reldiag_init 1 1 1) [some (1/2), some 2] [some 0, some 5]
        = reldiag_accum (reldiag_init 1 1 1) [some (1/2)] [some 0] :=
  reldiag_out_of_range_dropped (reldiag_init 1 1 1) [some (1/2)] [some 0] rfl 2 5 rfl
    (Or.inr (by norm_num))

theorem binContrib_nonneg (rd : RelDiag) (pairs : List (ℚ × ℚ)) (k : ℕ)
    (hp : ∀ q ∈ pairs, 0 ≤ q.1) :
    0 ≤ (binContrib rd pairs k).1 ∧ 0 ≤ (binContrib rd pairs k).2.1 ∧
      0 ≤ (binContrib rd pairs k).2.2.1 ∧ 0 ≤ (binContrib rd pairs k).2.2.2 := by
  simp only [binContrib]
  split
  · refine ⟨?_, ?_, ?_, ?_⟩
    · apply List.sum_nonneg
      intro x hx
      rw [List.mem_map] at hx
      obtain ⟨q, hq, rfl⟩ := hx
      exact hp q (List.mem_filter.mp hq).1
    · exact Int.natCast_nonneg _
    · exact Int.natCast_nonneg _
    · exact Int.natCast_nonneg _
  · norm_num

theorem reldiag_accum_mono (rd : RelDiag) (P_f X_o : List FVal) (j : ℕ)
    (hwf : RelDiagWF rd) (hp : ∀ q ∈ finitePairs P_f X_o, 0 ≤ q.1) :
    rd.X_sum.getD j 0 ≤ (reldiag_accum rd P_f X_o).X_sum.getD j 0 ∧
      rd.Y_sum.getD j 0 ≤ (reldiag_accum rd P_f X_o).Y_sum.getD j 0 ∧
      rd.num_idx.getD j 0 ≤ (reldiag_accum rd P_f X_o).num_idx.getD j 0 ∧
      rd.sample_size.getD j 0 ≤ (reldiag_accum rd P_f X_o).sample_size.getD j 0 := by
  by_cases hj : j < rd.n_bins
  · obtain ⟨e1, e2, e3, e4⟩ := reldiag_accum_getD rd P_f X_o j hwf hj
    obtain ⟨n1, n2, n3, n4⟩ := binContrib_nonneg rd (finitePairs P_f X_o) (j + 1) hp
    rw [e1, e2, e3, e4]
    exact ⟨le_add_of_nonneg_right n1, le_add_of_nonneg_right n2,
      le_add_of_nonneg_right n3, le_add_of_nonneg_right n4⟩
  · obtain ⟨he, h1, h2, h3, h4⟩ := hwf
    obtain ⟨he', h1', h2', h3', h4'⟩ := RelDiagWF_accum ⟨he, h1, h2, h3, h4⟩ P_f X_o
    have hnb : (reldiag_accum rd P_f X_o).n_bins = rd.n_bins := rfl
    rw [hnb] at h1' h2' h3' h4'
    refine ⟨?_, ?_, ?_, ?_⟩ <;>
      rw [List.getD_eq_default _ _ (by omega), List.getD_eq_default _ _ (by omega)]

theorem reldiag_run_wf (batches : List (List FVal × List FVal)) :
    ∀ rd, RelDiagWF rd → RelDiagWF (reldiag_run rd batches) := by
  induction batches with
  | nil => intro rd h; exact h
  | cons b bs ih => intro rd h; exact ih _ (RelDiagWF_accum h b.1 b.2)

theorem reldiag_run_nonneg (batches : List (List FVal × List FVal)) :
    ∀ rd, RelDiagWF rd →
      (∀ b ∈ batches, ∀ q ∈ finitePairs b.1 b.2, 0 ≤ q.1) →
      (∀ j, 0 ≤ rd.X_sum.getD j 0 ∧ 0 ≤ rd.Y_sum.getD j 0 ∧
        0 ≤ rd.num_idx.getD j 0 ∧ 0 ≤ rd.sample_size.getD j 0) →
      ∀ j, 0 ≤ (reldiag_run rd batches).X_sum.getD j 0 ∧
        0 ≤ (reldiag_run rd batches).Y_sum.getD j 0 ∧
        0 ≤ (reldiag_run rd batches).num_idx.getD j 0 ∧
        0 ≤ (reldiag_run rd batches).sample_size.getD j 0 := by
  induction batches with
  | nil => intro rd _ _ h0 j; exact h0 j
  | cons b bs ih =>
    intro rd hwf hb h0 j
    refine ih (reldiag_accum rd b.1 b.2) (RelDiagWF_accum hwf b.1 b.2)
      (fun c hc => hb c (List.mem_cons_of_mem b hc)) (fun j' => ?_) j
    obtain ⟨m1, m2, m3, m4⟩ := reldiag_accum_mono rd b.1 b.2 j' hwf
      (hb b (List.mem_cons_self b bs))
    obtain ⟨z1, z2, z3, z4⟩ := h0 j'
    exact ⟨le_trans z1 m1, le_trans z2 m2, le_trans z3 m3, le_trans z4 m4⟩

/-! ### Claims about the reliability-diagram running arrays -/

/-- C4 (counterexample): a finite forecast probability of `-1/2000000`
(inside the first right-inclusive bin, since the first edge is `-1e-6`)
is summed into `X_sum`, driving the entry below zero — and below its
previous value `0` — after a single `accum` call on a fresh accumulator,
refuting both non-negativity and monotonicity without a non-negativity
precondition on the probabilities. -/
theorem reldiag_nonneg_cex :
    (reldiag_init 1 1 1).X_sum.getD 0 0 = 0 ∧
      (reldiag_accum (reldiag_init 1 1 1) [some (-(1/2000000))] [some 0]).X_sum.getD 0 0 < 0 := by
  have hd : digitizeRight (reldiag_init 1 1 1).bin_edges (-(1/2000000)) = 1 := by
    rw [show (reldiag_init 1 1 1).bin_edges
        = linspace (-(1/1000000)) (1 + 1/1000000) 2 from rfl, linspace]
    norm_num [digitizeRight, List.range_succ, List.countP_cons]
  have hb : binContrib (reldiag_init 1 1 1) [(-(1/2000000), 0)] 1
      = (-(1/2000000), 0, 1, 1) := by
    simp only [binContrib, List.filter_cons, hd]
    norm_num [List.countP_cons, show (reldiag_init 1 1 1).min_count = 1 from rfl,
      show (reldiag_init 1 1 1).X_min = 1 from rfl]
  have hz : (reldiag_init 1 1 1).X_sum.getD 0 0 = 0 := getD_replicate_self 0 1 0
  have e := (reldiag_accum_getD (reldiag_init 1 1 1) [some (-(1/2000000))] [some 0] 0
    (RelDiagWF_init 1 1 1) Nat.one_pos).1
  have hpairs : finitePairs [some (-(1/2000000))] [some 0] = [(-(1/2000000), 0)] := rfl
  rw [hpairs] at e
  rw [e, hb, hz]
  norm_num

/-- C4 (amended): along any sequence of `reldiag_accum` calls from
`reldiag_init`, every entry of `X_sum`, `Y_sum`, `num_idx` and
`sample_size` is non-decreasing from one call to the next and never
negative, provided every finite forecast probability passed in is
non-negative (without that precondition `X_sum` can decrease and go
negative). -/
theorem reldiag_monotone_nonneg (X_min : ℚ) (n_bins min_count : ℕ)
    (batches : List (List FVal × List FVal)) (b : List FVal × List FVal) (j : ℕ)
    (hp : ∀ c ∈ batches ++ [b], ∀ q ∈ finitePairs c.1 c.2, 0 ≤ q.1) :
    ((reldiag_run (reldiag_init X_min n_bins min_count) batches).X_sum.getD j 0
        ≤ (reldiag_run (reldiag_init X_min n_bins min_count) (batches ++ [b])).X_sum.getD j 0
      ∧ 0 ≤ (reldiag_run (reldiag_init X_min n_bins min_count) batches).X_sum.getD j 0)
    ∧ ((reldiag_run (reldiag_init X_min n_bins min_count) batches).Y_sum.getD j 0
        ≤ (reldiag_run (reldiag_init X_min n_bins min_count) (batches ++ [b])).Y_sum.getD j 0
      ∧ 0 ≤ (reldiag_run (reldiag_init X_min n_bins min_count) batches).Y_sum.getD j 0)
    ∧ ((reldiag_run (reldiag_init X_min n_bins min_count) batches).num_idx.getD j 0
        ≤ (reldiag_run (reldiag_init X_min n_bins min_count) (batches ++ [b])).num_idx.getD j 0
      ∧ 0 ≤ (reldiag_run (reldiag_init X_min n_bins min_count) batches).num_idx.getD j 0)
    ∧ ((reldiag_run (reldiag_init X_min n_bins min_count) batches).sample_size.getD j 0
        ≤ (reldiag_run (reldiag_init X_min n_bins min_count) (batches ++ [b])).sample_size.getD j 0
      ∧ 0 ≤ (reldiag_run (reldiag_init X_min n_bins min_count) batches).sample_size.getD j 0) := by
  have hrun : reldiag_run (reldiag_init X_min n_bins min_count) (batches ++ [b])
      = reldiag_accum (reldiag_run (reldiag_init X_min n_bins min_count) batches) b.1 b.2 := by
    rw [reldiag_run, List.foldl_append]
    rfl
  have hwfS := reldiag_run_wf batches _ (RelDiagWF_init X_min n_bins min_count)
  obtain ⟨m1, m2, m3, m4⟩ := reldiag_accum_mono _ b.1 b.2 j hwfS
    (hp b (by simp))
  have hz : ∀ j', 0 ≤ (reldiag_init X_min n_bins min_count).X_sum.getD j' 0 ∧
      0 ≤ (reldiag_init X_min n_bins min_count).Y_sum.getD j' 0 ∧
      0 ≤ (reldiag_init X_min n_bins min_count).num_idx.getD j' 0 ∧
      0 ≤ (reldiag_init X_min n_bins min_count).sample_size.getD j' 0 := by
    intro j'
    refine ⟨?_, ?_, ?_, ?_⟩
    · rw [show (reldiag_init X_min n_bins min_count).X_sum
          = List.replicate n_bins (0 : ℚ) from rfl, getD_replicate_self]
    · rw [show (reldiag_init X_min n_bins min_count).Y_sum
          = List.replicate n_bins (0 : ℤ) from rfl, getD_replicate_self]
    · rw [show (reldiag_init X_min n_bins min_count).num_idx
          = List.replicate n_bins (0 : ℤ) from rfl, getD_replicate_self]
    · rw [show (reldiag_init X_min n_bins min_count).sample_size
          = List.replicate n_bins (0 : ℤ) from rfl, getD_replicate_self]
  obtain ⟨z1, z2, z3, z4⟩ := reldiag_run_nonneg batches _
    (RelDiagWF_init X_min n_bins min_count)
    (fun c hc => hp c (by simp [hc])) hz j
  rw [hrun]
  exact ⟨⟨m1, z1⟩, ⟨m2, z2⟩, ⟨m3, z3⟩, ⟨m4, z4⟩⟩

/-- Witness for C4 (amended): one call with a single non-negative
probability on a fresh one-bin accumulator. -/
theorem reldiag_monotone_nonneg_witness :
    ((reldiag_run (reldiag_init 1 1 1) []).X_sum.getD 0 0
        ≤ (reldiag_run (reldiag_init 1 1 1) ([] ++ [([some 1], [some 2])])).X_sum.getD 0 0
      ∧ 0 ≤ (reldiag_run (reldiag_init 1 1 1) []).X_sum.getD 0 0)
    ∧ ((reldiag_run (reldiag_init 1 1 1) []).Y_sum.getD 0 0
        ≤ (reldiag_run (reldiag_init 1 1 1) ([] ++ [([some 1], [some 2])])).Y_sum.getD 0 0
      ∧ 0 ≤ (reldiag_run (reldiag_init 1 1 1) []).Y_sum.getD 0 0)
    ∧ ((reldiag_run (reldiag_init 1 1 1) []).num_idx.getD 0 0
        ≤ (reldiag_run (reldiag_init 1 1 1) ([] ++ [([some 1], [some 2])])).num_idx.getD 0 0
      ∧ 0 ≤ (reldiag_run (reldiag_init 1 1 1) []).num_idx.getD 0 0)
    ∧ ((reldiag_run (reldiag_init 1 1 1) []).sample_size.getD 0 0
        ≤ (reldiag_run (reldiag_init 1 1 1) ([] ++ [([some 1], [some 2])])).sample_size.getD 0 0
      ∧ 0 ≤ (reldiag_run (reldiag_init 1 1 1) []).sample_size.getD 0 0) :=
  reldiag_monotone_nonneg 1 1 1 [] ([some 1], [some 2]) 0 (by decide)

/-- C8: the end-to-end reliability-diagram example — threshold `1`, two
bins, `min_samples_per_bin 1`, probabilities `[0.1, 0.1, 0.9, 0.9]` and
observations `[0, 0, 2, 2]` put two samples in each bin and yield curve
points `x = [0.1, 0.9]`, `y = [0.0, 1.0]`. -/
theorem reldiag_example :
    (reldiag_accum (reldiag_init 1 2 1)
        [some (1/10), some (1/10), some (9/10), some (9/10)]
        [some 0, some 0, some 2, some 2]).num_idx = [2, 2] ∧
      (reldiag_accum (reldiag_init 1 2 1)
        [some (1/10), some (1/10), some (9/10), some (9/10)]
        [some 0, some 0, some 2, some 2]).sample_size = [2, 2] ∧
      reldiag_compute (reldiag_accum (reldiag_init 1 2 1)
        [some (1/10), some (1/10), some (9/10), some (9/10)]
        [some 0, some 0, some 2, some 2]) = ([1/10, 9/10], [0, 1]) := by
  have hd1 : digitizeRight (reldiag_init 1 2 1).bin_edges (1/10) = 1 := by
    rw [show (reldiag_init 1 2 1).bin_edges
        = linspace (-(1/1000000)) (1 + 1/1000000) 3 from rfl, linspace]
    norm_num [digitizeRight, List.range_succ, List.countP_cons]
  have hd9 : digitizeRight (reldiag_init 1 2 1).bin_edges (9/10) = 2 := by
    rw [show (reldiag_init 1 2 1).bin_edges
        = linspace (-(1/1000000)) (1 + 1/1000000) 3 from rfl, linspace]
    norm_num [digitizeRight, List.range_succ, List.countP_cons]
  have hb1 : binContrib (reldiag_init 1 2 1)
      [(1/10, 0), (1/10, 0), (9/10, 2), (9/10, 2)] 1 = (1/5, 0, 2, 2) := by
    simp only [binContrib, List.filter_cons, List.filter_nil, hd1, hd9]
    norm_num [List.countP_cons, show (reldiag_init 1 2 1).min_count = 1 from rfl,
      show (reldiag_init 1 2 1).X_min = 1 from rfl]
  have hb2 : binContrib (reldiag_init 1 2 1)
      [(1/10, 0), (1/10, 0), (9/10, 2), (9/10, 2)] 2 = (9/5, 2, 2, 2) := by
    simp only [binContrib, List.filter_cons, List.filter_nil, hd1, hd9]
    norm_num [List.countP_cons, show (reldiag_init 1 2 1).min_count = 1 from rfl,
      show (reldiag_init 1 2 1).X_min = 1 from rfl]
  have hbi : binIndices (reldiag_init 1 2 1) = [1, 2] := by
    rw [binIndices, show (reldiag_init 1 2 1).bin_edges
        = linspace (-(1/1000000)) (1 + 1/1000000) 3 from rfl, linspace_length]
    decide
  have hpairs : finitePairs [some (1/10), some (1/10), some (9/10), some (9/10)]
      [some 0, some 0, some 2, some 2]
      = [(1/10, 0), (1/10, 0), (9/10, 2), (9/10, 2)] := rfl
  have hX : (reldiag_accum (reldiag_init 1 2 1)
      [some (1/10), some (1/10), some (9/10), some (9/10)]
      [some 0, some 0, some 2, some 2]).X_sum = [1/5, 9/5] := by
    rw [show (reldiag_accum (reldiag_init 1 2 1)
        [some (1/10), some (1/10), some (9/10), some (9/10)]
        [some 0, some 0, some 2, some 2]).X_sum
      = List.zipWith (· + ·) (reldiag_init 1 2 1).X_sum
        ((binIndices (reldiag_init 1 2 1)).map fun k =>
          (binContrib (reldiag_init 1 2 1)
            (finitePairs [some (1/10), some (1/10), some (9/10), some (9/10)]
              [some 0, some 0, some 2, some 2]) k).1) from rfl,
      hpairs, hbi, List.map_cons, List.map_cons, List.map_nil, hb1, hb2,
      show (reldiag_init 1 2 1).X_sum = [0, 0] from rfl]
    norm_num
  have hY : (reldiag_accum (reldiag_init 1 2 1)
      [some (1/10), some (1/10), some (9/10), some (9/10)]
      [some 0, some 0, some 2, some 2]).Y_sum = [0, 2] := by
    rw [show (reldiag_accum (reldiag_init 1 2 1)
        [some (1/10), some (1/10), some (9/10), some (9/10)]
        [some 0, some 0, some 2, some 2]).Y_sum
      = List.zipWith (· + ·) (reldiag_init 1 2 1).Y_sum
        ((binIndices (reldiag_init 1 2 1)).map fun k =>
          (binContrib (reldiag_init 1 2 1)
            (finitePairs [some (1/10), some (1/10), some (9/10), some (9/10)]
              [some 0, some 0, some 2, some 2]) k).2.1) from rfl,
      hpairs, hbi, List.map_cons, List.map_cons, List.map_nil, hb1, hb2,
      show (reldiag_init 1 2 1).Y_sum = [0, 0] from rfl]
    norm_num
  have hN : (reldiag_accum (reldiag_init 1 2 1)
      [some (1/10), some (1/10), some (9/10), some (9/10)]
      [some 0, some 0, some 2, some 2]).num_idx = [2, 2] := by
    rw [show (reldiag_accum (reldiag_init 1 2 1)
        [some (1/10), some (1/10), some (9/10), some (9/10)]
        [some 0, some 0, some 2, some 2]).num_idx
      = List.zipWith (· + ·) (reldiag_init 1 2 1).num_idx
        ((binIndices (reldiag_init 1 2 1)).map fun k =>
          (binContrib (reldiag_init 1 2 1)
            (finitePairs [some (1/10), some (1/10), some (9/10), some (9/10)]
              [some 0, some 0, some 2, some 2]) k).2.2.1) from rfl,
      hpairs, hbi, List.map_cons, List.map_cons, List.map_nil, hb1, hb2,
      show (reldiag_init 1 2 1).num_idx = [0, 0] from rfl]
    norm_num
  have hS : (reldiag_accum (reldiag_init 1 2 1)
      [some (1/10), some (1/10), some (9/10), some (9/10)]
      [some 0, some 0, some 2, some 2]).sample_size = [2, 2] := by
    rw [show (reldiag_accum (reldiag_init 1 2 1)
        [some (1/10), some (1/10), some (9/10), some (9/10)]
        [some 0, some 0, some 2, some 2]).sample_size
      = List.zipWith (· + ·) (reldiag_init 1 2 1).sample_size
        ((binIndices (reldiag_init 1 2 1)).map fun k =>
          (binContrib (reldiag_init 1 2 1)
            (finitePairs [some (1/10), some (1/10), some (9/10), some (9/10)]
              [some 0, some 0, some 2, some 2]) k).2.2.2) from rfl,
      hpairs, hbi, List.map_cons, List.map_cons, List.map_nil, hb1, hb2,
      show (reldiag_init 1 2 1).sample_size = [0, 0] from rfl]
    norm_num
  refine ⟨hN, hS, ?_⟩
  rw [reldiag_compute, hX, hY, hN]
  norm_num

end ProbScores
